import Mathlib

/-!
Verification of the `jerry_db_scraper` enrichment pipeline
(`src/events_scrape.py`) against its specification.

The Python code is shallowly embedded: JSON values become the inductive
type `Val`, Python dicts become association lists built by insert-or-update
(`insertR` / `pyUpdate`, mirroring `d[k] = v` and `{**a, **b}`), the
detail-page extractor `extract_event_data` becomes a pure function over an
abstract `Page` (the results of its BeautifulSoup queries), the per-task
body `process_event` becomes `processSlot`, the checkpoint store becomes
list-of-named-snapshot operations, and the asyncio semaphore discipline
becomes a small-step interleaving relation.
-/

namespace JerryDB

/-- A JSON-like Python value: string, list, dict (association list) or
`None`.  This is the value universe of the event records flowing through
`events_scrape.py`. -/
inductive Val : Type where
  | vStr (s : String) : Val
  | vList (l : List Val) : Val
  | vDict (d : List (String × Val)) : Val
  | vNone : Val

/-- A Python dict, as an association list in insertion order (the order
Python dicts preserve). -/
abbrev Dict := List (String × Val)

/-- The keys of a dict, in order. -/
def keysOf (m : Dict) : List String := m.map Prod.fst

/-- Python `d[k] = v` on a dict: replace the value at the first occurrence
of `k` in place, or append `(k, v)` at the end if `k` is absent. -/
def insertR : Dict → String → Val → Dict
  | [], k, v => [(k, v)]
  | (k', v') :: rest, k, v =>
      if k' = k then (k', v) :: rest else (k', v') :: insertR rest k v

/-- Fold `d[k] = v` over a list of pairs: the semantics of updating a dict
with every pair of another, left to right. -/
def pyUpdate (m : Dict) (b : Dict) : Dict :=
  b.foldl (fun acc kv => insertR acc kv.1 kv.2) m

/-- Python `{**a, **b}`: build a fresh dict, insert all of `a`'s pairs,
then all of `b`'s (later pairs win on key collision). -/
def dictMerge (a b : Dict) : Dict := pyUpdate (pyUpdate [] a) b

/-- First-occurrence lookup (Python dict lookup on a dict without
duplicate keys; dicts built with `pyUpdate` from `[]` never have them). -/
def dictGet : Dict → String → Option Val
  | [], _ => none
  | (k', v) :: rest, k => if k' = k then some v else dictGet rest k

/-- Last-occurrence lookup: the value a sequence of `d[k] = v` assignments
leaves at key `k` — the Python-dict meaning of a raw pair list. -/
def pyGet : Dict → String → Option Val
  | [], _ => none
  | (k', v) :: rest, k =>
      match pyGet rest k with
      | some w => some w
      | none => if k' = k then some v else none

/-- The body of `process_event` at `updated_data[year][index]`
(src/events_scrape.py lines 154-156): if `extract_event_data` returned a
truthy dict (`if detailed_data:` — `None` and the empty dict are falsy),
store `{**event, **detailed_data}`; otherwise the slot keeps the original
event. -/
def processSlot (event : Dict) (detailed : Option Dict) : Dict :=
  match detailed with
  | none => event
  | some [] => event
  | some d => dictMerge event d

/-- Lift an optional stripped text to a record value: `x.text.strip() if x
else None` in the source. -/
def optStr (o : Option String) : Val :=
  match o with
  | some s => Val.vStr s.trim
  | none => Val.vNone

/-- Python `title.split(" ")[0]`: the segment before the first space (the
whole string when it has no space; `split` never returns an empty list). -/
def dateFromTitle (t : String) : String :=
  String.mk (t.data.takeWhile (fun c => c ≠ ' '))

/-- Python `title.split(" ", 1)`: `none` when the title contains no space
(so that indexing `[1]` raises `IndexError`), otherwise the part before
the first space and the remainder after it. -/
def splitOnceSpace (t : String) : Option (String × String) :=
  match t.data.dropWhile (fun c => c ≠ ' ') with
  | [] => none
  | _ :: rest => some (String.mk (t.data.takeWhile (fun c => c ≠ ' ')), String.mk rest)

/-- Python `s.strip('- ')`: remove leading and trailing dashes and
spaces. -/
def stripDashSpace (s : String) : String :=
  let p := fun c => c = '-' || c = ' '
  String.mk (((s.toList.dropWhile p).reverse.dropWhile p).reverse)

/-- The musician-pairing loop of `extract_event_data` (lines 75-85):
consecutive lines pair up as name then instrument (the instrument line
stripped of `'- '`); a trailing unpaired line gets instrument
`"unknown"`. -/
def parseMusicians : List String → List Val
  | [] => []
  | [n] => [Val.vDict [("name", Val.vStr n), ("instrument", Val.vStr "unknown")]]
  | n :: instr :: rest =>
      Val.vDict [("name", Val.vStr n), ("instrument", Val.vStr (stripDashSpace instr))]
        :: parseMusicians rest

/-- The results of the BeautifulSoup queries `extract_event_data` runs on
one fetched detail page: each field is `none` when the corresponding
element is absent from the page.  `fetchOk` is false when the request or
`raise_for_status` fails. -/
structure Page where
  fetchOk : Bool
  title : Option String
  h4InlineDate : Option String
  spanTextMuted : Option String
  venueH4 : Option String
  simpleCardSongs : Option (List String)
  datatableRows : Option (List (Option String))
  musiciansLines : Option (List String)
  notesItems : Option (List String)

/-- The setlist extraction (lines 54-69): the song-link texts of
`div#simple-card` when present; if that yields an empty list, fall back to
the first link of each row of the `datatable_` table (rows without a link
are skipped). -/
def extractSetlist (p : Page) : List String :=
  let fromCard :=
    match p.simpleCardSongs with
    | some songs => songs
    | none => []
  if fromCard = [] then
    match p.datatableRows with
    | some rows => rows.filterMap id
    | none => []
  else fromCard

/-- The extractor `extract_event_data` (src/events_scrape.py lines
24-100) as a pure
function of the page's query results.  Any exception — a failed fetch, a
missing `<title>` (so `soup.title.text` raises `AttributeError`), or a
title with no space (so `title.split(" ", 1)[1]` raises `IndexError`) —
is caught by the enclosing `try` and the function returns `None`.
Otherwise it returns the dict built with exactly the eight keys the code
assigns, in assignment order. -/
def extract_event_data (p : Page) : Option Dict :=
  if p.fetchOk then
    match p.title with
    | none => none
    | some t =>
        match splitOnceSpace t with
        | none => none
        | some (_, band) =>
            some [("date_from_title", Val.vStr (dateFromTitle t)),
                  ("date", optStr p.h4InlineDate),
                  ("date_is_placeholder",
                    Val.vStr ((p.spanTextMuted.map String.trim).getD "Date might be accurate")),
                  ("band", Val.vStr band),
                  ("venue", optStr p.venueH4),
                  ("setlist", Val.vList ((extractSetlist p).map (fun s => Val.vStr s.trim))),
                  ("musicians", Val.vList (parseMusicians ((p.musiciansLines).getD []))),
                  ("notes", Val.vList (((p.notesItems).getD []).map (fun s => Val.vStr s.trim)))]
  else none

/-- One record's journey through the pipeline: records carrying a `url`
key are scheduled (lines 138-140) and their slot is rewritten by
`processSlot` with whatever the fetcher returned for that url; records
without a `url` key are never scheduled, so their slot in the deep copy
stays as-is (lines 126-140). -/
def enrichOne (fetch : Val → Option Dict) (event : Dict) : Dict :=
  match dictGet event "url" with
  | some u => processSlot event (fetch u)
  | none => event

/-- A working dataset: year key to ordered list of event records. -/
abbrev Dataset := List (String × List Dict)

/-- The data flow of a fresh (checkpoint-free) run of
`process_events_data`: every `(year, index)` slot is written by exactly
one task (the task-to-slot mapping is a bijection and each task touches
only its own slot), so the final `updated_data` is the input with every
url-bearing record replaced by its `processSlot` result.  `fetch` stands
for `extract_event_data` composed over the session fetch of the record's
url. -/
def runPipeline (fetch : Val → Option Dict) (data : Dataset) : Dataset :=
  data.map (fun ye => (ye.1, ye.2.map (enrichOne fetch)))

/-! ## Checkpoint store (lines 113-124 and 160-173)

Checkpoint files are named `checkpoint_<timestamp>` with a
second-resolution timestamp, so names sort chronologically; the directory
is modelled as a list of (timestamp, snapshot) pairs and
`sorted(os.listdir(...))` as an insertion sort on the timestamp. -/

/-- Insert one (name, snapshot) pair into a name-sorted listing. -/
def insertByTs {α : Type} (x : Nat × α) : List (Nat × α) → List (Nat × α)
  | [] => [x]
  | y :: ys => if x.1 ≤ y.1 then x :: y :: ys else y :: insertByTs x ys

/-- Python `sorted(...)` on a directory listing of (name, snapshot)
pairs. -/
def sortByTs {α : Type} : List (Nat × α) → List (Nat × α)
  | [] => []
  | x :: xs => insertByTs x (sortByTs xs)

/-- The checkpoint write and prune of `process_event` (lines 161-173):
dump the snapshot to a new `checkpoint_<now>` file, re-list the
directory sorted by name, and delete everything but the last three
(`checkpoint_files[:-3]` are removed; the keep count 3 is hard-coded). -/
def saveCheckpoint {α : Type} (store : List (Nat × α)) (ts : Nat) (snap : α) :
    List (Nat × α) :=
  let files := sortByTs (store ++ [(ts, snap)])
  files.drop (files.length - 3)

/-- The restore of `process_events_data` (lines 118-124): the
lexicographically last checkpoint file, or `none` when the directory is
empty. -/
def restoreCheckpoint {α : Type} (store : List (Nat × α)) : Option α :=
  ((sortByTs store).getLast?).map Prod.snd

/-- Run a whole sequence of checkpoint saves from an initial store. -/
def foldSaves {α : Type} (store : List (Nat × α)) (saves : List (Nat × α)) :
    List (Nat × α) :=
  saves.foldl (fun st p => saveCheckpoint st p.1 p.2) store

/-! ## Filesystem trace of one checkpoint write (lines 162-168) -/

/-- The filesystem operations a writer can perform. -/
inductive FsOp : Type where
  | openWrite (path : String) : FsOp
  | writeChunk (path : String) (chunk : String) : FsOp
  | closeFile (path : String) : FsOp
  | renameFile (src dst : String) : FsOp

/-- The operation trace of the checkpoint write in the source:
`with open(checkpoint_file, 'w') as f: json.dump(updated_data, f, ...)`
opens the final path directly, streams the serialization into it chunk by
chunk, and closes it.  No temporary file and no rename appear. -/
def saveTrace (path : String) (chunks : List String) : List FsOp :=
  FsOp.openWrite path :: chunks.map (FsOp.writeChunk path) ++ [FsOp.closeFile path]

/-- Whether a trace realizes write-to-temporary-then-atomic-rename for
`finalPath`: no open or write ever targets the final path, and some
rename installs it. -/
def atomicViaTempRename (trace : List FsOp) (finalPath : String) : Bool :=
  trace.all (fun op =>
    match op with
    | FsOp.openWrite p => p != finalPath
    | FsOp.writeChunk p _ => p != finalPath
    | _ => true) &&
  trace.any (fun op =>
    match op with
    | FsOp.renameFile _ dst => dst == finalPath
    | _ => false)

/-- A filesystem: association of path to current content. -/
abbrev Fs := List (String × String)

/-- Look up a file's content. -/
def getFile (fs : Fs) (path : String) : Option String :=
  match fs with
  | [] => none
  | (p, c) :: rest => if p = path then some c else getFile rest path

/-- Create or overwrite a file. -/
def setFile (fs : Fs) (path content : String) : Fs :=
  match fs with
  | [] => [(path, content)]
  | (p, c) :: rest =>
      if p = path then (p, content) :: rest else (p, c) :: setFile rest path content

/-- Remove a file. -/
def removeFile (fs : Fs) (path : String) : Fs :=
  match fs with
  | [] => []
  | (p, c) :: rest => if p = path then rest else (p, c) :: removeFile rest path

/-- Effect of one filesystem operation. -/
def applyOp (fs : Fs) : FsOp → Fs
  | FsOp.openWrite p => setFile fs p ""
  | FsOp.writeChunk p c =>
      match getFile fs p with
      | some s => setFile fs p (s ++ c)
      | none => fs
  | FsOp.closeFile _ => fs
  | FsOp.renameFile src dst =>
      match getFile fs src with
      | some s => setFile (removeFile fs src) dst s
      | none => fs

/-- Run a trace of operations on the empty filesystem. -/
def runFsOps (ops : List FsOp) : Fs := ops.foldl applyOp []

/-! ## Run startup (lines 113-140) -/

/-- One unit of enrichment work: (year, index, event record). -/
abbrev Task := String × Nat × Dict

/-- The task collection of `process_events_data` (lines 133-140): every
`(year, i, event)` whose record has a `'url'` key, with no further
filter — nothing inspects whether the slot already carries enrichment
fields. The loop iterates the variable `data`. -/
def selectTasks (data : Dataset) : List Task :=
  data.flatMap (fun ye =>
    ye.2.enum.filterMap (fun ie =>
      if (dictGet ie.2 "url").isSome then some (ye.1, ie.1, ie.2) else none))

/-- The startup errors the embedded code can raise. -/
inductive RunError : Type where
  | unboundLocalData : RunError

/-- Startup of `process_events_data` (lines 113-140).  When the checkpoint
directory holds files, the latest snapshot is loaded into `updated_data`
and the function proceeds to the task-collection loop, which iterates
`data` — a local variable assigned only in the no-checkpoint branch (line
127), so that loop raises `UnboundLocalError` before any task is created.
When no checkpoint exists, `data` is the input file's content,
`updated_data` its deep copy, and the tasks are collected from `data`. -/
def startRun (checkpoints : List (Nat × Dataset)) (input : Dataset) :
    Except RunError (Dataset × List Task) :=
  match restoreCheckpoint checkpoints with
  | some _ => Except.error RunError.unboundLocalData
  | none => Except.ok (input, selectTasks input)

/-! ## Admission gate (lines 131 and 149-178)

Each task is `async with semaphore: sleep(delay); fetch; merge/count/
checkpoint` with a `try/except/finally` inside the `with`, so a slot is
acquired before the pacing delay and released when the body exits,
success or failure alike.  Tasks interleave at await points; the step
relation below lets the scheduler advance any one task at a time. -/

/-- Where one task stands in the body of `process_event`. -/
inductive Phase : Type where
  | notStarted : Phase
  | delaying : Phase
  | fetching : Phase
  | merging : Phase
  | finished : Phase
  deriving DecidableEq

/-- A task holds a semaphore slot from its acquire to its release — while
it is delaying, fetching, or merging/bookkeeping. -/
def holdsSlot : Phase → Bool
  | Phase.notStarted => false
  | Phase.finished => false
  | _ => true

/-- A task has an in-flight detail fetch exactly in its fetching phase. -/
def inFlight : Phase → Bool
  | Phase.fetching => true
  | _ => false

/-- Number of semaphore slots currently held. -/
def holders (s : List Phase) : Nat := s.countP (fun ph => holdsSlot ph)

/-- Number of simultaneously in-flight detail fetches. -/
def fetchesInFlight (s : List Phase) : Nat := s.countP (fun ph => inFlight ph)

/-- One scheduler step of the pipeline: some task advances one stage.
Acquiring the semaphore (`async with semaphore:`) is enabled only while
fewer than `cap = max_concurrent` slots are held; every other transition
is internal to the task.  Release (`merging → finished`) happens whether
the body succeeded or raised, as the exception is caught in the task. -/
inductive SchedStep (cap : Nat) : List Phase → List Phase → Prop where
  | acquire (l r : List Phase) :
      holders (l ++ Phase.notStarted :: r) < cap →
      SchedStep cap (l ++ Phase.notStarted :: r) (l ++ Phase.delaying :: r)
  | startFetch (l r : List Phase) :
      SchedStep cap (l ++ Phase.delaying :: r) (l ++ Phase.fetching :: r)
  | endFetch (l r : List Phase) :
      SchedStep cap (l ++ Phase.fetching :: r) (l ++ Phase.merging :: r)
  | release (l r : List Phase) :
      SchedStep cap (l ++ Phase.merging :: r) (l ++ Phase.finished :: r)

/-- The states a run with `n` tasks and concurrency cap `cap` can reach
from its start, where no task has begun. -/
inductive SchedReach (cap n : Nat) : List Phase → Prop where
  | init : SchedReach cap n (List.replicate n Phase.notStarted)
  | step {s s' : List Phase} :
      SchedReach cap n s → SchedStep cap s s' → SchedReach cap n s'

/-! ## Dict lemmas -/

theorem dictGet_insertR (m : Dict) (k k2 : String) (v : Val) :
    dictGet (insertR m k v) k2 = if k2 = k then some v else dictGet m k2 := by
  induction m with
  | nil =>
      by_cases h : k2 = k
      · subst h
        simp [insertR, dictGet]
      · simp [insertR, dictGet, h, Ne.symm h]
  | cons hd tl ih =>
      obtain ⟨k', v'⟩ := hd
      by_cases hk : k' = k
      · subst hk
        by_cases h2 : k2 = k'
        · subst h2
          simp [insertR, dictGet]
        · simp [insertR, dictGet, h2, Ne.symm h2]
      · by_cases h2 : k2 = k
        · subst h2
          simp [insertR, dictGet, hk, ih, Ne.symm hk]
        · simp [insertR, dictGet, hk, ih, h2]

theorem mem_keysOf_insertR (m : Dict) (k k2 : String) (v : Val) :
    k2 ∈ keysOf (insertR m k v) ↔ k2 ∈ keysOf m ∨ k2 = k := by
  induction m with
  | nil => simp [insertR, keysOf]
  | cons hd tl ih =>
      obtain ⟨k', v'⟩ := hd
      by_cases hk : k' = k
      · subst hk
        rw [show insertR ((k', v') :: tl) k' v = (k', v) :: tl by simp [insertR]]
        simp only [keysOf, List.map_cons, List.mem_cons]
        tauto
      · simp only [insertR, if_neg hk, keysOf, List.map_cons, List.mem_cons] at ih ⊢
        rw [ih]
        tauto

theorem insertR_insertR_same (m : Dict) (k : String) (v1 v2 : Val) :
    insertR (insertR m k v1) k v2 = insertR m k v2 := by
  induction m with
  | nil => simp [insertR]
  | cons hd tl ih =>
      obtain ⟨k', v'⟩ := hd
      simp only [insertR]
      by_cases hk : k' = k
      · simp [insertR, hk]
      · simp [insertR, hk, ih]

theorem insertR_comm_of_mem (m : Dict) (k k2 : String) (v v2 : Val)
    (hne : k ≠ k2) (hmem : k ∈ keysOf m) :
    insertR (insertR m k v) k2 v2 = insertR (insertR m k2 v2) k v := by
  induction m with
  | nil => simp [keysOf] at hmem
  | cons hd tl ih =>
      obtain ⟨k', v'⟩ := hd
      by_cases h1 : k' = k
      · subst h1
        simp [insertR, hne, Ne.symm hne]
      · by_cases h2 : k' = k2
        · subst h2
          simp [insertR, h1, hne]
        · have hmem' : k ∈ keysOf tl := by
            simp only [keysOf, List.map_cons, List.mem_cons] at hmem
            rcases hmem with h | h
            · exact absurd h.symm h1
            · exact h
          simp [insertR, h1, h2, ih hmem']

theorem insertR_eq_of_dictGet (m : Dict) (k : String) (v : Val)
    (h : dictGet m k = some v) : insertR m k v = m := by
  induction m with
  | nil => simp [dictGet] at h
  | cons hd tl ih =>
      obtain ⟨k', v'⟩ := hd
      simp only [dictGet] at h
      by_cases hk : k' = k
      · rw [if_pos hk] at h
        cases h
        simp [insertR, hk]
      · rw [if_neg hk] at h
        simp [insertR, hk, ih h]

theorem dictGet_pyUpdate (b m : Dict) (k : String) :
    dictGet (pyUpdate m b) k =
      match pyGet b k with
      | some w => some w
      | none => dictGet m k := by
  induction b generalizing m with
  | nil => simp [pyUpdate, pyGet]
  | cons hd tl ih =>
      obtain ⟨k1, v1⟩ := hd
      show dictGet (pyUpdate (insertR m k1 v1) tl) k = _
      rw [ih]
      cases htl : pyGet tl k with
      | some w => simp [pyGet, htl]
      | none =>
          simp only [pyGet, htl, dictGet_insertR]
          by_cases h : k1 = k
          · subst h
            simp
          · simp [h, Ne.symm h]

theorem mem_keysOf_pyUpdate (b m : Dict) (k : String) :
    k ∈ keysOf (pyUpdate m b) ↔ k ∈ keysOf m ∨ k ∈ keysOf b := by
  induction b generalizing m with
  | nil => simp [pyUpdate, keysOf]
  | cons hd tl ih =>
      obtain ⟨k1, v1⟩ := hd
      show k ∈ keysOf (pyUpdate (insertR m k1 v1) tl) ↔ _
      rw [ih, mem_keysOf_insertR]
      simp only [keysOf, List.map_cons, List.mem_cons]
      tauto

theorem pyGet_eq_none_of_not_mem (b : Dict) (k : String)
    (h : k ∉ keysOf b) : pyGet b k = none := by
  induction b with
  | nil => simp [pyGet]
  | cons hd tl ih =>
      obtain ⟨k', v'⟩ := hd
      simp only [keysOf, List.map_cons, List.mem_cons, not_or] at h
      simp [pyGet, ih h.2, Ne.symm h.1]

theorem pyUpdate_insertR_of_mem (b : Dict) (m : Dict) (k : String) (v : Val)
    (hm : k ∈ keysOf m) (hb : k ∈ keysOf b) :
    pyUpdate (insertR m k v) b = pyUpdate m b := by
  induction b generalizing m v with
  | nil => simp [keysOf] at hb
  | cons hd tl ih =>
      obtain ⟨k2, w⟩ := hd
      by_cases hk : k2 = k
      · subst hk
        show pyUpdate (insertR (insertR m k2 v) k2 w) tl = pyUpdate (insertR m k2 w) tl
        rw [insertR_insertR_same]
      · have hb' : k ∈ keysOf tl := by
          simp only [keysOf, List.map_cons, List.mem_cons] at hb
          rcases hb with h | h
          · exact absurd h.symm hk
          · exact h
        show pyUpdate (insertR (insertR m k v) k2 w) tl = pyUpdate (insertR m k2 w) tl
        rw [insertR_comm_of_mem m k k2 v w (fun h => hk h.symm) hm]
        exact ih (insertR m k2 w) v ((mem_keysOf_insertR m k2 k w).2 (Or.inl hm)) hb'

theorem pyUpdate_pyUpdate_self (b a : Dict) :
    pyUpdate (pyUpdate a b) b = pyUpdate a b := by
  induction b generalizing a with
  | nil => rfl
  | cons hd tl ih =>
      obtain ⟨k, v⟩ := hd
      show pyUpdate (insertR (pyUpdate (insertR a k v) tl) k v) tl
            = pyUpdate (insertR a k v) tl
      by_cases hmem : k ∈ keysOf tl
      · have hm : k ∈ keysOf (pyUpdate (insertR a k v) tl) :=
          (mem_keysOf_pyUpdate tl (insertR a k v) k).2
            (Or.inl ((mem_keysOf_insertR a k k v).2 (Or.inr rfl)))
        rw [pyUpdate_insertR_of_mem tl _ k v hm hmem]
        exact ih (insertR a k v)
      · have hget : dictGet (pyUpdate (insertR a k v) tl) k = some v := by
          rw [dictGet_pyUpdate]
          rw [pyGet_eq_none_of_not_mem tl k hmem]
          simp [dictGet_insertR]
        rw [insertR_eq_of_dictGet _ k v hget]
        exact ih (insertR a k v)

/-- Keys with no duplicates: the invariant of every real Python dict. -/
def nodupKeys (m : Dict) : Prop := (keysOf m).Nodup

theorem keysOf_insertR (m : Dict) (k : String) (v : Val) :
    keysOf (insertR m k v) =
      if k ∈ keysOf m then keysOf m else keysOf m ++ [k] := by
  induction m with
  | nil => simp [insertR, keysOf]
  | cons hd tl ih =>
      obtain ⟨k', v'⟩ := hd
      by_cases hk : k' = k
      · subst hk
        simp [insertR, keysOf]
      · simp only [insertR]
        rw [if_neg hk]
        simp only [keysOf, List.map_cons] at ih ⊢
        rw [ih]
        by_cases hm : k ∈ List.map Prod.fst tl
        · rw [if_pos hm, if_pos (List.mem_cons_of_mem k' hm)]
        · rw [if_neg hm, if_neg (by
            simp only [List.mem_cons, not_or]
            exact ⟨Ne.symm hk, hm⟩)]
          simp

theorem nodupKeys_insertR (m : Dict) (k : String) (v : Val)
    (h : nodupKeys m) : nodupKeys (insertR m k v) := by
  unfold nodupKeys
  rw [keysOf_insertR]
  by_cases hm : k ∈ keysOf m
  · simpa [hm] using h
  · simp only [if_neg hm]
    exact List.Nodup.append h (List.nodup_singleton k)
      (by simp [List.Disjoint]; intro a ha hak; exact hm (hak ▸ ha))

theorem nodupKeys_pyUpdate (b m : Dict) (h : nodupKeys m) :
    nodupKeys (pyUpdate m b) := by
  induction b generalizing m with
  | nil => exact h
  | cons hd tl ih =>
      obtain ⟨k, v⟩ := hd
      exact ih (insertR m k v) (nodupKeys_insertR m k v h)

theorem insertR_eq_append_of_not_mem (m : Dict) (k : String) (v : Val)
    (h : k ∉ keysOf m) : insertR m k v = m ++ [(k, v)] := by
  induction m with
  | nil => simp [insertR]
  | cons hd tl ih =>
      obtain ⟨k', v'⟩ := hd
      simp only [keysOf, List.map_cons, List.mem_cons, not_or] at h
      simp [insertR, Ne.symm h.1, ih h.2]

theorem pyUpdate_append_of_disjoint (b m : Dict)
    (hd : ∀ k ∈ keysOf b, k ∉ keysOf m) (hb : nodupKeys b) :
    pyUpdate m b = m ++ b := by
  induction b generalizing m with
  | nil => simp [pyUpdate]
  | cons hd' tl ih =>
      obtain ⟨k, v⟩ := hd'
      have hk : k ∉ keysOf m := hd k (by simp [keysOf])
      show pyUpdate (insertR m k v) tl = m ++ (k, v) :: tl
      rw [insertR_eq_append_of_not_mem m k v hk]
      have hb' : nodupKeys tl := by
        unfold nodupKeys at hb ⊢
        simp only [keysOf, List.map_cons, List.nodup_cons] at hb
        exact hb.2
      have hknotin : k ∉ keysOf tl := by
        unfold nodupKeys at hb
        simp only [keysOf, List.map_cons, List.nodup_cons] at hb
        exact hb.1
      rw [ih (m ++ [(k, v)]) ?_ hb']
      · simp
      · intro k2 hk2
        simp only [keysOf, List.map_append, List.mem_append, List.map_cons,
          List.mem_cons, not_or] at hd ⊢
        exact ⟨hd k2 (Or.inr hk2), fun hkk => hknotin (hkk ▸ hk2), by simp⟩

theorem pyUpdate_nil_of_nodup (m : Dict) (h : nodupKeys m) :
    pyUpdate [] m = m := by
  rw [pyUpdate_append_of_disjoint m [] (by simp [keysOf]) h]
  simp

theorem pyGet_eq_dictGet_of_nodup (m : Dict) (k : String) (h : nodupKeys m) :
    pyGet m k = dictGet m k := by
  induction m with
  | nil => rfl
  | cons hd tl ih =>
      obtain ⟨k', v⟩ := hd
      have hnod : nodupKeys tl := by
        unfold nodupKeys at h ⊢
        simp only [keysOf, List.map_cons, List.nodup_cons] at h
        exact h.2
      have hk' : k' ∉ keysOf tl := by
        unfold nodupKeys at h
        simp only [keysOf, List.map_cons, List.nodup_cons] at h
        exact h.1
      by_cases hkk : k' = k
      · subst hkk
        have : pyGet tl k' = none := pyGet_eq_none_of_not_mem tl k' hk'
        simp [pyGet, dictGet, this]
      · simp only [pyGet, dictGet, ih hnod, if_neg hkk]
        cases hres : dictGet tl k with
        | some w => simp
        | none => simp [hkk]

theorem pyGet_dictMerge (o e : Dict) (k : String) :
    pyGet (dictMerge o e) k =
      match pyGet e k with
      | some v => some v
      | none => pyGet o k := by
  have h2 : nodupKeys (dictMerge o e) :=
    nodupKeys_pyUpdate e _ (nodupKeys_pyUpdate o [] List.nodup_nil)
  rw [pyGet_eq_dictGet_of_nodup _ k h2]
  show dictGet (pyUpdate (pyUpdate [] o) e) k = _
  rw [dictGet_pyUpdate, dictGet_pyUpdate]
  cases pyGet e k <;> cases pyGet o k <;> simp [dictGet]

theorem mem_keysOf_dictMerge (o e : Dict) (k : String) :
    k ∈ keysOf (dictMerge o e) ↔ k ∈ keysOf o ∨ k ∈ keysOf e := by
  show k ∈ keysOf (pyUpdate (pyUpdate [] o) e) ↔ _
  rw [mem_keysOf_pyUpdate, mem_keysOf_pyUpdate]
  simp [keysOf]

theorem dictMerge_idem (o e : Dict) :
    dictMerge (dictMerge o e) e = dictMerge o e := by
  have h2 : nodupKeys (dictMerge o e) :=
    nodupKeys_pyUpdate e _ (nodupKeys_pyUpdate o [] List.nodup_nil)
  show pyUpdate (pyUpdate [] (dictMerge o e)) e = dictMerge o e
  rw [pyUpdate_nil_of_nodup _ h2]
  exact pyUpdate_pyUpdate_self e (pyUpdate [] o)

/-- Year lookup in a working dataset (Python dict access by year key). -/
def yearGet (data : Dataset) (y : String) : Option (List Dict) :=
  match data with
  | [] => none
  | (y', es) :: rest => if y' = y then some es else yearGet rest y

theorem yearGet_runPipeline (fetch : Val → Option Dict) (data : Dataset)
    (y : String) :
    yearGet (runPipeline fetch data) y =
      (yearGet data y).map (List.map (enrichOne fetch)) := by
  induction data with
  | nil => rfl
  | cons hd tl ih =>
      obtain ⟨y', es⟩ := hd
      by_cases hy : y' = y
      · simp [runPipeline, yearGet, hy]
      · simpa [runPipeline, yearGet, hy] using ih

/-- Claim C3: `merge(original, None)` returns the original unchanged, and
for non-`None` enrichment the merged record's value at every key is the
enrichment's value when the enrichment carries that key and the
original's otherwise, and the merged record's keys are exactly the keys
of the two sides together. -/
theorem merge_none_id_enrichment_wins (o e : Dict) (k : String) :
    processSlot o none = o
    ∧ pyGet (processSlot o (some e)) k =
        (match pyGet e k with
         | some v => some v
         | none => pyGet o k)
    ∧ (k ∈ keysOf (processSlot o (some e)) ↔ k ∈ keysOf o ∨ k ∈ keysOf e) := by
  refine ⟨rfl, ?_, ?_⟩
  · cases e with
    | nil => simp [processSlot, pyGet]
    | cons x xs =>
        show pyGet (dictMerge o (x :: xs)) k = _
        exact pyGet_dictMerge o (x :: xs) k
  · cases e with
    | nil => simp [processSlot, keysOf]
    | cons x xs =>
        show k ∈ keysOf (dictMerge o (x :: xs)) ↔ _
        exact mem_keysOf_dictMerge o (x :: xs) k

/-- Claim C9: the merge step is idempotent — re-merging the same
enrichment into an already-merged record changes nothing, for every
original record and every fetch outcome (`None`, empty, or a dict). -/
theorem processSlot_idem (o : Dict) (e : Option Dict) :
    processSlot (processSlot o e) e = processSlot o e := by
  cases e with
  | none => rfl
  | some d =>
      cases d with
      | nil => rfl
      | cons x xs =>
          show processSlot (dictMerge o (x :: xs)) (some (x :: xs)) = _
          show dictMerge (dictMerge o (x :: xs)) (x :: xs) = _
          exact dictMerge_idem o (x :: xs)

/-- The two-task scenario's fetcher: `/1` yields `{setlist: ["Song A"]}`,
`/2` fails. -/
def scenarioFetch : Val → Option Dict := fun u =>
  match u with
  | Val.vStr s =>
      if s = "http://x/1" then some [("setlist", Val.vList [Val.vStr "Song A"])]
      else none
  | _ => none

/-- The two-task scenario's input file. -/
def scenarioInput : Dataset :=
  [("2020", [[("url", Val.vStr "http://x/1")], [("url", Val.vStr "http://x/2")]])]

/-- Claim C2: on the two-task input where fetching `/1` yields
`{setlist: ["Song A"]}` and fetching `/2` fails, the final output is
exactly the first record successfully merged and the second unchanged —
no partial merge. -/
theorem scenario_two_tasks :
    runPipeline scenarioFetch scenarioInput =
      [("2020", [[("url", Val.vStr "http://x/1"),
                  ("setlist", Val.vList [Val.vStr "Song A"])],
                 [("url", Val.vStr "http://x/2")]])] := by
  rfl

/-- Claim C8: a record without a `url` key, or one whose fetch failed,
appears in the final output exactly as it appeared in the input — every
field untouched. -/
theorem untouched_records (fetch : Val → Option Dict) (data : Dataset)
    (y : String) (es : List Dict) (i : Nat) (e : Dict)
    (hy : yearGet data y = some es) (hi : es.get? i = some e)
    (hcond : dictGet e "url" = none
      ∨ ∃ u, dictGet e "url" = some u ∧ fetch u = none) :
    ∃ es', yearGet (runPipeline fetch data) y = some es'
      ∧ es'.get? i = some e := by
  refine ⟨es.map (enrichOne fetch), ?_, ?_⟩
  · rw [yearGet_runPipeline, hy]
    rfl
  · rw [List.get?_map, hi]
    have he : enrichOne fetch e = e := by
      rcases hcond with h | ⟨u, hu, hf⟩
      · simp [enrichOne, h]
      · simp [enrichOne, hu, hf, processSlot]
    simp [he]

/-- Witness for C8 at a concrete input: a single record with no `url`
key passes through an all-failing run unchanged. -/
theorem untouched_records_witness :
    ∃ es', yearGet (runPipeline (fun _ => none)
        [("2020", [[("note", Val.vNone)]])]) "2020" = some es'
      ∧ es'.get? 0 = some [("note", Val.vNone)] :=
  untouched_records (fun _ => none) [("2020", [[("note", Val.vNone)]])]
    "2020" [[("note", Val.vNone)]] 0 [("note", Val.vNone)]
    (by rfl) (by rfl) (Or.inl (by rfl))

/-- A snapshot record that already carries enrichment fields. -/
def enrichedRec : Dict :=
  [("url", Val.vStr "http://x/1"), ("setlist", Val.vList [Val.vStr "Song A"])]

/-- Claim C1 (code bug): a run started with one saved checkpoint does not
restore-and-skip.  The startup raises `UnboundLocalError` (the task loop
iterates `data`, assigned only in the no-checkpoint branch), and the task
selection itself has no already-enriched filter: a record that already
carries `setlist` is still selected as a task. -/
theorem restore_run_crashes :
    startRun [(1, [("2020", [enrichedRec])])]
        [("2020", [[("url", Val.vStr "http://x/1")]])]
      = Except.error RunError.unboundLocalData
    ∧ selectTasks [("2020", [enrichedRec])] = [("2020", 0, enrichedRec)] :=
  ⟨rfl, rfl⟩

/-- The concrete final path of one checkpoint file. -/
def ckptPath : String := "checkpoints/checkpoint_20241201_120000.json"

/-- Claim C5 counterexample: the checkpoint write of the source is not a
temp-write-plus-atomic-rename — its trace opens and writes the final
path directly and contains no rename — and after the first chunk of a
two-chunk dump, the final path already exists holding only that chunk,
which differs from the full snapshot serialization. -/
theorem save_not_atomic_cex :
    atomicViaTempRename (saveTrace ckptPath ["[1, 2", ", 3]"]) ckptPath = false
    ∧ getFile (runFsOps ((saveTrace ckptPath ["[1, 2", ", 3]"]).take 2)) ckptPath
        = some "[1, 2"
    ∧ ("[1, 2" : String) ≠ "[1, 2" ++ ", 3]" :=
  ⟨rfl, rfl, by decide⟩

theorem length_foldl_append (l : List String) (init : String) :
    (List.foldl (fun r s => r ++ s) init l).length
      = init.length + (List.foldl (fun r s => r ++ s) "" l).length := by
  induction l generalizing init with
  | nil => simp
  | cons s ss ih =>
      simp only [List.foldl_cons]
      rw [ih (init ++ s), ih ("" ++ s)]
      simp only [String.length_append, String.empty_append]
      omega

/-- Claim C5 amended: the snapshot is written directly to its final path
(`open(checkpoint_file, 'w')` then `json.dump`), so a restore that reads
the file between the first write and the close observes a
partially-written snapshot; no temp-and-rename step exists in the
trace. -/
theorem save_direct_write_partial (path c1 c2 : String) (rest : List String)
    (h : c2 ++ String.join rest ≠ "") :
    getFile (runFsOps ((saveTrace path (c1 :: c2 :: rest)).take 2)) path
        = some ("" ++ c1)
    ∧ ("" ++ c1) ≠ String.join (c1 :: c2 :: rest)
    ∧ atomicViaTempRename (saveTrace path (c1 :: c2 :: rest)) path = false := by
  refine ⟨?_, ?_, ?_⟩
  · show getFile (runFsOps [FsOp.openWrite path, FsOp.writeChunk path c1]) path = _
    simp [runFsOps, applyOp, setFile, getFile]
  · rw [String.empty_append]
    intro heq
    have hexp : (String.join (c1 :: c2 :: rest)).length
        = c1.length + (c2.length
            + (List.foldl (fun r s => r ++ s) "" rest).length) := by
      show (List.foldl (fun r s => r ++ s) "" (c1 :: c2 :: rest)).length = _
      simp only [List.foldl_cons, String.empty_append]
      rw [length_foldl_append rest (c1 ++ c2)]
      simp only [String.length_append]
      omega
    have hlen := congrArg String.length heq
    rw [hexp] at hlen
    have hc2 : c2.length = 0 := by omega
    have hjr : (String.join rest).length = 0 := by
      show (List.foldl (fun r s => r ++ s) "" rest).length = 0
      omega
    apply h
    have hz : (c2 ++ String.join rest).length = 0 := by
      rw [String.length_append, hc2, hjr]
    cases hs : c2 ++ String.join rest with
    | mk data =>
        rw [hs] at hz
        cases data with
        | nil => rfl
        | cons c cs => simp at hz
  · simp [atomicViaTempRename, saveTrace]

/-- Witness for the amended C5 at a concrete path and two-chunk dump. -/
theorem save_direct_write_partial_witness :
    getFile (runFsOps ((saveTrace ckptPath ("[1, 2" :: ", 3]" :: [])).take 2)) ckptPath
        = some ("" ++ "[1, 2")
    ∧ ("" ++ "[1, 2") ≠ String.join ("[1, 2" :: ", 3]" :: [])
    ∧ atomicViaTempRename (saveTrace ckptPath ("[1, 2" :: ", 3]" :: [])) ckptPath
        = false :=
  save_direct_write_partial ckptPath "[1, 2" ", 3]" [] (by decide)

/-- A detail page whose fetch succeeded and whose title parses, but with
every optional element absent. -/
def pageBare : Page :=
  { fetchOk := true
    title := some "1969-08-16 Grateful Dead"
    h4InlineDate := none
    spanTextMuted := none
    venueH4 := none
    simpleCardSongs := none
    datatableRows := none
    musiciansLines := none
    notesItems := none }

/-- Claim C7: whenever the fetch succeeded and the page's title parses,
the extractor returns a record regardless of which optional elements are
absent — an absent date heading or venue yields `None` for just that
field (`optStr none = vNone`), an absent setlist yields the empty list —
and a `None` (total-failure) result never propagates past the task
boundary: the slot keeps its original record. -/
theorem graceful_extract (p : Page) (e : Dict) (t w band : String)
    (h1 : p.fetchOk = true) (h2 : p.title = some t)
    (h3 : splitOnceSpace t = some (w, band)) :
    (∃ r, extract_event_data p = some r
      ∧ dictGet r "date" = some (optStr p.h4InlineDate)
      ∧ dictGet r "venue" = some (optStr p.venueH4)
      ∧ dictGet r "setlist" =
          some (Val.vList ((extractSetlist p).map (fun s => Val.vStr s.trim))))
    ∧ processSlot e none = e := by
  have hr : extract_event_data p =
      some [("date_from_title", Val.vStr (dateFromTitle t)),
            ("date", optStr p.h4InlineDate),
            ("date_is_placeholder",
              Val.vStr ((p.spanTextMuted.map String.trim).getD "Date might be accurate")),
            ("band", Val.vStr band),
            ("venue", optStr p.venueH4),
            ("setlist", Val.vList ((extractSetlist p).map (fun s => Val.vStr s.trim))),
            ("musicians", Val.vList (parseMusicians ((p.musiciansLines).getD []))),
            ("notes", Val.vList (((p.notesItems).getD []).map (fun s => Val.vStr s.trim)))] := by
    simp [extract_event_data, h1, h2, h3]
  exact ⟨⟨_, hr, by simp [dictGet], by simp [dictGet], by simp [dictGet]⟩, rfl⟩

/-- Witness for C7: on `pageBare` (successful fetch, parseable title,
everything optional absent) a record is still returned, with `None` date
and venue and an empty setlist. -/
theorem graceful_extract_witness :
    (∃ r, extract_event_data pageBare = some r
      ∧ dictGet r "date" = some (optStr pageBare.h4InlineDate)
      ∧ dictGet r "venue" = some (optStr pageBare.venueH4)
      ∧ dictGet r "setlist" =
          some (Val.vList ((extractSetlist pageBare).map (fun s => Val.vStr s.trim))))
    ∧ processSlot [("x", Val.vNone)] none = [("x", Val.vNone)] :=
  graceful_extract pageBare [("x", Val.vNone)]
    "1969-08-16 Grateful Dead" "1969-08-16" "Grateful Dead" rfl rfl (by rfl)

/-- Claim C10: every record the extractor returns has exactly the eight
keys assigned in the source, in assignment order, and its `setlist`,
`musicians` and `notes` values are lists. -/
theorem extract_shape (p : Page) (r : Dict)
    (h : extract_event_data p = some r) :
    keysOf r = ["date_from_title", "date", "date_is_placeholder", "band",
                "venue", "setlist", "musicians", "notes"]
    ∧ (∃ l, dictGet r "setlist" = some (Val.vList l))
    ∧ (∃ l, dictGet r "musicians" = some (Val.vList l))
    ∧ (∃ l, dictGet r "notes" = some (Val.vList l)) := by
  rw [extract_event_data] at h
  split at h
  · split at h
    · exact Option.noConfusion h
    · split at h
      · exact Option.noConfusion h
      · cases h
        refine ⟨rfl,
          ⟨(extractSetlist p).map (fun s => Val.vStr s.trim), ?_⟩,
          ⟨parseMusicians ((p.musiciansLines).getD []), ?_⟩,
          ⟨((p.notesItems).getD []).map (fun s => Val.vStr s.trim), ?_⟩⟩ <;>
          simp [dictGet]
  · exact Option.noConfusion h

/-- Witness for C10 on the concrete page `pageBare`. -/
theorem extract_shape_witness :
    keysOf [("date_from_title", Val.vStr "1969-08-16"),
            ("date", Val.vNone),
            ("date_is_placeholder", Val.vStr "Date might be accurate"),
            ("band", Val.vStr "Grateful Dead"),
            ("venue", Val.vNone),
            ("setlist", Val.vList []),
            ("musicians", Val.vList []),
            ("notes", Val.vList [])]
        = ["date_from_title", "date", "date_is_placeholder", "band",
           "venue", "setlist", "musicians", "notes"]
    ∧ (∃ l, dictGet [("date_from_title", Val.vStr "1969-08-16"),
            ("date", Val.vNone),
            ("date_is_placeholder", Val.vStr "Date might be accurate"),
            ("band", Val.vStr "Grateful Dead"),
            ("venue", Val.vNone),
            ("setlist", Val.vList []),
            ("musicians", Val.vList []),
            ("notes", Val.vList [])] "setlist" = some (Val.vList l))
    ∧ (∃ l, dictGet [("date_from_title", Val.vStr "1969-08-16"),
            ("date", Val.vNone),
            ("date_is_placeholder", Val.vStr "Date might be accurate"),
            ("band", Val.vStr "Grateful Dead"),
            ("venue", Val.vNone),
            ("setlist", Val.vList []),
            ("musicians", Val.vList []),
            ("notes", Val.vList [])] "musicians" = some (Val.vList l))
    ∧ (∃ l, dictGet [("date_from_title", Val.vStr "1969-08-16"),
            ("date", Val.vNone),
            ("date_is_placeholder", Val.vStr "Date might be accurate"),
            ("band", Val.vStr "Grateful Dead"),
            ("venue", Val.vNone),
            ("setlist", Val.vList []),
            ("musicians", Val.vList []),
            ("notes", Val.vList [])] "notes" = some (Val.vList l)) :=
  extract_shape pageBare _ (by rfl)

/-! ## Checkpoint-store lemmas (C4) -/

theorem sortByTs_of_sorted {α : Type} (l : List (Nat × α))
    (h : List.Chain' (fun a b => a.1 ≤ b.1) l) : sortByTs l = l := by
  induction l with
  | nil => rfl
  | cons y ys ih =>
      show insertByTs y (sortByTs ys) = y :: ys
      rw [ih h.tail]
      cases ys with
      | nil => rfl
      | cons z zs =>
          have hyz : y.1 ≤ z.1 := (List.chain'_cons.mp h).1
          simp [insertByTs, hyz]

theorem saveCheckpoint_sorted_step {α : Type} (st : List (Nat × α)) (t : Nat)
    (snap : α)
    (hpw : List.Pairwise (fun a b => a.1 < b.1) (st ++ [(t, snap)])) :
    saveCheckpoint st t snap
      = (st ++ [(t, snap)]).drop ((st ++ [(t, snap)]).length - 3) := by
  unfold saveCheckpoint
  rw [sortByTs_of_sorted _ (List.Chain'.imp (fun a b h => le_of_lt h) hpw.chain')]

theorem foldSaves_inv {α : Type} (saves : List (Nat × α)) :
    ∀ st : List (Nat × α),
      List.Pairwise (fun a b => a.1 < b.1) (st ++ saves) →
      st.length ≤ 3 →
      List.Pairwise (fun a b => a.1 < b.1) (foldSaves st saves)
      ∧ (foldSaves st saves).length ≤ 3
      ∧ (foldSaves st saves).getLast? = (st ++ saves).getLast? := by
  induction saves with
  | nil =>
      intro st hpw hlen
      exact ⟨by simpa using hpw, hlen, by simp [foldSaves]⟩
  | cons hd rest ih =>
      obtain ⟨t, snap⟩ := hd
      intro st hpw hlen
      have hsub1 : List.Sublist (st ++ [(t, snap)]) (st ++ (t, snap) :: rest) :=
        List.Sublist.append_left (List.cons_sublist_cons.2 (List.nil_sublist rest)) st
      have hpw1 : List.Pairwise (fun a b => a.1 < b.1) (st ++ [(t, snap)]) :=
        hpw.sublist hsub1
      have hstep := saveCheckpoint_sorted_step st t snap hpw1
      have hkle : (st ++ [(t, snap)]).length - 3 ≤ st.length := by
        simp only [List.length_append, List.length_cons, List.length_nil]
        omega
      have hdropform : saveCheckpoint st t snap
          = st.drop ((st ++ [(t, snap)]).length - 3) ++ [(t, snap)] := by
        rw [hstep, List.drop_append_of_le_length hkle]
      have hlen' : (saveCheckpoint st t snap).length ≤ 3 := by
        rw [hstep]
        simp only [List.length_drop, List.length_append, List.length_cons,
          List.length_nil]
        omega
      have hlast' : (saveCheckpoint st t snap).getLast? = some (t, snap) := by
        rw [hdropform, List.getLast?_concat]
      have hpw' : List.Pairwise (fun a b => a.1 < b.1)
          (saveCheckpoint st t snap ++ rest) := by
        refine hpw.sublist ?_
        rw [hdropform, List.append_assoc]
        exact List.Sublist.append (List.drop_sublist _ _) (List.Sublist.refl _)
      obtain ⟨rpw, rlen, rlast⟩ := ih (saveCheckpoint st t snap) hpw' hlen'
      refine ⟨rpw, rlen, ?_⟩
      show (foldSaves (saveCheckpoint st t snap) rest).getLast? = _
      rw [rlast, List.getLast?_append, List.getLast?_append, hlast']
      cases hr : rest.getLast? <;> simp [List.getLast?_cons, hr, Option.or]

/-- Claim C4: running any strictly-timestamp-increasing sequence of
checkpoint saves against an initially empty checkpoint directory leaves
at most 3 (= keep) snapshots after every save, and restoring afterwards
returns exactly the content of the most recent save. -/
theorem checkpoint_keep3_restore_latest {α : Type} (saves : List (Nat × α))
    (hsorted : List.Pairwise (fun a b => a.1 < b.1) saves) :
    (foldSaves [] saves).length ≤ 3
    ∧ restoreCheckpoint (foldSaves [] saves) = (saves.getLast?).map Prod.snd := by
  obtain ⟨hpw, hlen, hlast⟩ :=
    foldSaves_inv saves [] (by simpa using hsorted) (by simp)
  refine ⟨hlen, ?_⟩
  show ((sortByTs (foldSaves [] saves)).getLast?).map Prod.snd = _
  rw [sortByTs_of_sorted _ (List.Chain'.imp (fun a b h => le_of_lt h) hpw.chain'),
    hlast]
  simp

/-- Witness for C4: four saves with timestamps 1..4 leave three
snapshots, and restore returns the fourth snapshot's content. -/
theorem checkpoint_keep3_restore_latest_witness :
    (foldSaves ([] : List (Nat × Nat)) [(1, 10), (2, 20), (3, 30), (4, 40)]).length ≤ 3
    ∧ restoreCheckpoint (foldSaves ([] : List (Nat × Nat))
        [(1, 10), (2, 20), (3, 30), (4, 40)])
      = (([(1, 10), (2, 20), (3, 30), (4, 40)] : List (Nat × Nat)).getLast?).map Prod.snd :=
  checkpoint_keep3_restore_latest [(1, 10), (2, 20), (3, 30), (4, 40)] (by decide)

/-! ## Admission-gate lemmas (C6) -/

theorem holders_append_cons (l r : List Phase) (x : Phase) :
    holders (l ++ x :: r) = holders l + (holders [x] + holders r) := by
  simp only [holders, List.countP_append, List.countP_cons, List.countP_nil]
  omega

theorem holders_le_cap {cap n : Nat} {s : List Phase}
    (h : SchedReach cap n s) : holders s ≤ cap := by
  induction h with
  | init =>
      have : holders (List.replicate n Phase.notStarted) = 0 := by
        apply List.countP_eq_zero.mpr
        intro a ha
        rw [List.eq_of_mem_replicate ha]
        simp [holdsSlot]
      omega
  | step hr hs ih =>
      cases hs with
      | acquire l r hlt =>
          rw [holders_append_cons] at hlt ⊢
          have h1 : holders [Phase.notStarted] = 0 := rfl
          have h2 : holders [Phase.delaying] = 1 := rfl
          rw [h1] at hlt
          rw [h2]
          omega
      | startFetch l r =>
          rw [holders_append_cons] at ih ⊢
          have h1 : holders [Phase.delaying] = 1 := rfl
          have h2 : holders [Phase.fetching] = 1 := rfl
          rw [h1] at ih
          rw [h2]
          omega
      | endFetch l r =>
          rw [holders_append_cons] at ih ⊢
          have h1 : holders [Phase.fetching] = 1 := rfl
          have h2 : holders [Phase.merging] = 1 := rfl
          rw [h1] at ih
          rw [h2]
          omega
      | release l r =>
          rw [holders_append_cons] at ih ⊢
          have h1 : holders [Phase.merging] = 1 := rfl
          have h2 : holders [Phase.finished] = 0 := rfl
          rw [h1] at ih
          rw [h2]
          omega

/-- Claim C6: in every state any run of the pipeline can reach, the
number of simultaneously in-flight detail fetches never exceeds
`max_concurrent`; a slot is acquired before the pacing delay and fetch
and released only after the task resolves (the step relation encodes
exactly this acquire/delay/fetch/release order from the source). -/
theorem gate_bounds_inflight (cap n : Nat) (s : List Phase)
    (h : SchedReach cap n s) : fetchesInFlight s ≤ cap := by
  have hmono : fetchesInFlight s ≤ holders s := by
    apply List.countP_mono_left
    intro ph _ hph
    cases ph <;> simp_all [inFlight, holdsSlot]
  exact le_trans hmono (holders_le_cap h)

/-- Witness for C6: with cap 2 and one task, the state after the task
acquires its slot is reachable and satisfies the in-flight bound. -/
theorem gate_bounds_inflight_witness :
    SchedReach 2 1 [Phase.delaying]
    ∧ fetchesInFlight [Phase.delaying] ≤ 2 := by
  have hstep : SchedStep 2 (List.replicate 1 Phase.notStarted) [Phase.delaying] :=
    SchedStep.acquire [] [] (by decide)
  have hreach : SchedReach 2 1 [Phase.delaying] :=
    SchedReach.step SchedReach.init hstep
  exact ⟨hreach, gate_bounds_inflight 2 1 [Phase.delaying] hreach⟩

end JerryDB
